import Mathlib

/-!
Shallow embedding of the ledger-settlement core of `stats.py` (the repository
`let-me-write-that-down-for-you`), together with proofs about it.

Conventions of the embedding:
* Python floats are modelled as exact rationals (`ℚ`); the string-to-float
  conversion performed by `float(...)` is modelled separately (`pyFloatOfString`).
* pandas objects are modelled by the lists/association lists they hold in this
  pipeline: a `Series` indexed by labels is a `List (String × ℚ)` in index order,
  a set is represented by the list of its elements (duplicates immaterial, removed
  when the set is `sorted`).
* All definitions are executable; string-level facts reduce in the kernel.
-/

namespace Stats

/-- Python `\s` / `str.strip` whitespace (ASCII range; the inputs of this ledger
contain no exotic Unicode whitespace). -/
def pySpace (c : Char) : Bool :=
  c == ' ' || c == '\t' || c == '\n' || c == '\r' || c == '\x0b' || c == '\x0c'

/-- Model of Python `str.strip()`, applied to every cell by
`df.applymap(str.strip)` (stats.py line 118). -/
def pyStrip (s : String) : String :=
  ((s.toList.dropWhile pySpace).reverse.dropWhile pySpace).reverse.asString

/-- The order used by Python `sorted` on strings: lexicographic by code point.
(`String.toList` comparison under the lexicographic order on `List Char`.) -/
def strLe (a b : String) : Prop := a.toList ≤ b.toList

instance : DecidableRel strLe := fun a b => inferInstanceAs (Decidable (a.toList ≤ b.toList))

instance : IsTotal String strLe := ⟨fun a b => le_total a.toList b.toList⟩

instance : IsTrans String strLe := ⟨fun _ _ _ h1 h2 => le_trans h1 h2⟩

instance : IsAntisymm String strLe := ⟨fun _ _ h1 h2 => String.ext (le_antisymm h1 h2)⟩

/-- Python `sorted(s)` for a set `s` of strings: the distinct elements in
ascending lexicographic order. -/
def sortDedup (l : List String) : List String := List.insertionSort strLe l.dedup

/-- Scanner for `re.split(r'\s*[SEP]\s*', s)` where `SEP` is a character class:
a match of the pattern is the maximal whitespace run preceding a separator
character, the separator, and the (greedy) whitespace run following it, matched
leftmost-first.  Equivalently: cut at every separator character, strip the cut
token's trailing whitespace, and strip the following token's leading whitespace.
`acc` holds the current token reversed. -/
def splitSepChars (isSep : Char → Bool) : List Char → List Char → List (List Char)
  | acc, [] => [acc.reverse]
  | acc, c :: rest =>
    if isSep c then
      (acc.dropWhile pySpace).reverse ::
        (splitSepChars isSep [] rest).modifyHead (·.dropWhile pySpace)
    else
      splitSepChars isSep (c :: acc) rest

/-- `re.split(r'\s*[SEP]\s*', s)` on strings. -/
def reSplit (isSep : Char → Bool) (s : String) : List String :=
  (splitSepChars isSep [] s.toList).map List.asString

/-- The "AND" separators of a recipient expression: `[+&;]` (stats.py line 101). -/
def sepAnd (c : Char) : Bool := c == '+' || c == '&' || c == ';'

/-- The subtraction separators of a recipient expression: `[\-\\]` (lines 102-103). -/
def sepMinus (c : Char) : Bool := c == '-' || c == '\\'

/-- `parts = re.split(r'\s*[+&;]\s*', address)` (line 101). -/
def partsOf (address : String) : List String := reSplit sepAnd address

/-- `add`: the first `-`/`\`-separated piece of each part (line 102).
(`re.split` never returns an empty list, so the `headD` default is inert.) -/
def addTokens (address : String) : List String :=
  (partsOf address).map fun x => (reSplit sepMinus x).headD ""

/-- `subtract`: the remaining `-`/`\`-separated pieces of every part (line 103). -/
def subTokens (address : String) : List String :=
  (partsOf address).flatMap fun x => (reSplit sepMinus x).tail

/-- A group table: pandas DataFrame with group names as columns and person names
as index, a non-null cell marking membership.  Modelled as the association list
from group name to the list of its members (`groups.index[groups[x].notnull()]`). -/
abbrev GroupTable := List (String × List String)

/-- The dynamically typed value `_expand_groups` returns: a Python `set` (of
strings) on the expanding paths, but the untouched input *tuple* when `groups`
is `None` (stats.py lines 91-92). -/
inductive PyColl where
  | tup (elems : List String)
  | set (elems : List String)
  deriving DecidableEq

/-- Python exceptions that the embedded code can raise. -/
inductive PyErr where
  | typeError
  deriving DecidableEq

def lookupGroup (g : GroupTable) (x : String) : Option (List String) := g.lookup x

/-- The set built by `_expand_groups` on its expanding path (lines 93-99):
`(set(_parts) - set(relevant_groups)) | set(relevant_group_members)`, where
`relevant_groups` are the parts that are group columns and the members come from
the non-null rows of those columns.  Sets are represented by element lists. -/
def expandSetList (g : GroupTable) (parts : List String) : List String :=
  (parts.filter fun x => !((parts.filter fun y => (lookupGroup g y).isSome).contains x))
    ++ (parts.filter fun y => (lookupGroup g y).isSome).flatMap
        (fun x => (lookupGroup g x).getD [])

/-- `_expand_groups` (stats.py lines 88-99).  With `groups is None` the input
tuple is returned unchanged (line 92) — a tuple, not a set. -/
def expand_groups (groups : Option GroupTable) (parts : List String) : PyColl :=
  if parts.isEmpty then .set []
  else
    match groups with
    | none => .tup parts
    | some g => .set (expandSetList g parts)

/-- Python's binary `-` on the results: defined only between two sets; any other
combination raises `TypeError` (`unsupported operand type(s) for -`). -/
def pySetDiff : PyColl → PyColl → Except PyErr (List String)
  | .set a, .set b => .ok (a.filter fun x => !(b.contains x))
  | _, _ => .error .typeError

/-- `compute_recipients` (stats.py lines 59-104):
`sorted(_expand_groups(add) - _expand_groups(subtract))`. -/
def compute_recipients (address : String) (groups : Option GroupTable) :
    Except PyErr (List String) :=
  (pySetDiff (expand_groups groups (addTokens address))
    (expand_groups groups (subTokens address))).map sortDedup

/-- Modelled from the spec (§4.1 expansion rule): a token that matches a known
group name is replaced by the set of persons with non-null membership in that
group column; any other token is a literal person name. -/
def expandToken (g : GroupTable) (t : String) : List String :=
  match lookupGroup g t with
  | some members => members
  | none => [t]

/-- Modelled from the spec (§4.1): Result = union(expand(add tokens)) −
union(expand(subtract tokens)), returned sorted. -/
def resolveSpec (address : String) (g : GroupTable) : List String :=
  sortDedup (((addTokens address).flatMap (expandToken g)).filter
    fun x => !(((subTokens address).flatMap (expandToken g)).contains x))

/-- Modelled from the spec (§4.1): "If no `groups` is supplied, tokens are never
expanded (treated as literal names only)" — the sorted literal add tokens minus
the literal subtract tokens. -/
def resolveLiteralSpec (address : String) : List String :=
  sortDedup ((addTokens address).filter fun x => !((subTokens address).contains x))

/-- The group table of the `compute_recipients` doctest (stats.py lines 71-75):
Ice Cream ⊇ {Alice, Bob}, Pizza ⊇ {Alice}, Charlie in no group. -/
def gEx : GroupTable := [("Ice Cream", ["Alice", "Bob"]), ("Pizza", ["Alice"])]

def isDigitC (c : Char) : Bool := '0' ≤ c && c ≤ '9'

/-- Decimal value of a digit run. -/
def digitsToNat (l : List Char) : ℕ := l.foldl (fun acc c => 10 * acc + (c.toNat - 48)) 0

/-- Mantissa of a decimal literal with sign `sgn`, integer-part value `i`,
fraction-part value `f` and fraction length `k`. -/
def mantissaVal (sgn : ℚ) (i f k : ℕ) : ℚ := sgn * ((i : ℚ) + (f : ℚ) / 10 ^ k)

/-- Exponent suffix of a float literal: `[eE][+-]?digits` followed by nothing.
Returns the signed exponent, or `none` when the remainder is not a well-formed
exponent suffix. -/
def pyFloatExp (l : List Char) : Option ℤ :=
  match l with
  | e :: r =>
    if e == 'e' || e == 'E' then
      let esgn : ℤ := match r with
        | '-' :: _ => -1
        | _ => 1
      let r1 := match r with
        | '-' :: rr => rr
        | '+' :: rr => rr
        | _ => r
      let ed := r1.takeWhile isDigitC
      if ed.isEmpty || !(r1.dropWhile isDigitC).isEmpty then none
      else some (esgn * (digitsToNat ed : ℤ))
    else none
  | [] => some 0

/-- The syntactic pieces of a decimal float literal with the surrounding
whitespace already removed: (negative sign, integer-part value, fraction-part
value, fraction length, exponent); `none` when the shape is not a float
literal.  Optional sign, then `digits[.digits]` or `.digits`, then an optional
exponent.  (`inf`/`nan` words and digit underscores are not modelled; no claim
touches them.)  Notably a decimal *comma* is not part of the grammar. -/
def pyFloatParts (l : List Char) : Option (Bool × ℕ × ℕ × ℕ × ℤ) :=
  let neg : Bool := match l with
    | '-' :: _ => true
    | _ => false
  let l1 := match l with
    | '-' :: r => r
    | '+' :: r => r
    | _ => l
  let ip := l1.takeWhile isDigitC
  let l2 := l1.dropWhile isDigitC
  let fp := match l2 with
    | '.' :: r => r.takeWhile isDigitC
    | _ => []
  let l3 := match l2 with
    | '.' :: r => r.dropWhile isDigitC
    | _ => l2
  if ip.isEmpty && fp.isEmpty then none
  else
    match pyFloatExp l3 with
    | none => none
    | some e => some (neg, digitsToNat ip, digitsToNat fp, fp.length, e)

/-- Model of Python `float(s)` for strings, as applied to every amount cell by
`df[[amount]].applymap(float)` (stats.py line 119): strip the surrounding
whitespace, parse the literal, and form its exact value.  `none` models the
`ValueError` raised when the field does not parse. -/
def pyFloatOfString (s : String) : Option ℚ :=
  (pyFloatParts ((s.toList.dropWhile pySpace).reverse.dropWhile pySpace).reverse).map
    fun p => mantissaVal (if p.1 then -1 else 1) p.2.1 p.2.2.1 p.2.2.2.1 * (10 : ℚ) ^ p.2.2.2.2

/-- Modelled from the spec (§4.2): "parse `amount` as a decimal number
(accepting either `.` or `,` as the fractional separator)" — a decimal comma is
normalised to a point before the conversion. -/
def parseAmountSpec (s : String) : Option ℚ :=
  pyFloatOfString ((s.toList.map fun c => if c == ',' then '.' else c).asString)

/-- One raw ledger row.  `summary` (stats.py line 116-117) destructures the five
sheet columns and immediately drops the date column; the amount is carried here
already parsed to `ℚ` — the string-to-float conversion of line 119 is modelled
separately by `pyFloatOfString` (see the claims on amount parsing). -/
structure PRecord where
  date : String
  item : String
  creditor : String
  debtor : String
  amount : ℚ
  deriving DecidableEq

/-- `df.applymap(str.strip)` (line 118) on one row. -/
def trimRecord (r : PRecord) : PRecord :=
  { r with date := pyStrip r.date, item := pyStrip r.item,
           creditor := pyStrip r.creditor, debtor := pyStrip r.debtor }

/-- Line 127 resolves every debtor cell with `partial(compute_recipients,
groups=df_groups)` where `df_groups = pd.DataFrame()` (line 121) is the *empty*
frame (not `None`), for which `compute_recipients` never raises; the error
branch here is unreachable and returns the junk value `[]`. -/
def resolveOrEmpty (g : GroupTable) (address : String) : List String :=
  match compute_recipients address (some g) with
  | .ok l => l
  | .error _ => []

/-- The expanded debtor list of a (stripped) record. -/
def expandDebtors (r : PRecord) : List String := resolveOrEmpty [] r.debtor

/-- One stacked row: one (creditor, debtor) pair with its even share (line 130-137). -/
structure Row where
  creditor : String
  debtor : String
  item : String
  share : ℚ
  deriving DecidableEq

/-- Lines 130-137: the amount is split evenly over the expanded debtor list and
the list column is stacked into one row per debtor.  A record whose debtor list
is empty contributes no row to any later stage: its amount becomes `inf` by the
zero division, but its single all-NaN expansion is dropped by `.stack()` and its
NaN debtor key is excluded by the `groupby` of line 140, so nothing of it
reaches the summed matrix, the balances or the clearing. -/
def allocate (records : List PRecord) : List Row :=
  records.flatMap fun r =>
    (expandDebtors r).map fun d =>
      { creditor := r.creditor, debtor := d, item := r.item,
        share := r.amount / ((expandDebtors r).length : ℚ) }

/-- The stacked rows of a raw ledger: strip all cells (line 118), then allocate. -/
def ledgerRows (records : List PRecord) : List Row := allocate (records.map trimRecord)

/-- One cell of the summed pairwise debt matrix (`df_summed`, line 140; missing
pairs read as the `fill_value=0.` of the unstack on line 143). -/
def cellTotal (rows : List Row) (c d : String) : ℚ :=
  ((rows.filter fun w => w.creditor == c && w.debtor == d).map Row.share).sum

/-- The distinct creditor labels (index of the unstacked matrix). -/
def creditorLabels (rows : List Row) : List String := (rows.map Row.creditor).dedup

/-- The distinct debtor labels (columns of the unstacked matrix). -/
def debtorLabels (rows : List Row) : List String := (rows.map Row.debtor).dedup

/-- `total_paid` (line 148): row sum of the expense matrix over the debtor columns. -/
def totalPaid (rows : List Row) (p : String) : ℚ :=
  ((debtorLabels rows).map fun d => cellTotal rows p d).sum

/-- `total_received` (line 145): column sum of the expense matrix over the creditor rows. -/
def totalReceived (rows : List Row) (p : String) : ℚ :=
  ((creditorLabels rows).map fun c => cellTotal rows c p).sum

/-- `balances` (line 153): `total_paid.subtract(total_received, fill_value=0.)`.
For a label on one side only, the missing side sums no cells and is `0`. -/
def balance (rows : List Row) (p : String) : ℚ := totalPaid rows p - totalReceived rows p

/-- The index of the balances series: pandas aligns `total_paid` (creditor
labels) and `total_received` (debtor labels) on the *sorted union* of the two
indexes. -/
def personsSorted (rows : List Row) : List String :=
  sortDedup (rows.map Row.creditor ++ rows.map Row.debtor)

/-- The balances series a ledger produces (lines 143-153), in index order. -/
def balancesSeries (records : List PRecord) : List (String × ℚ) :=
  (personsSorted (ledgerRows records)).map fun p => (p, balance (ledgerRows records) p)

/-- `transfers.append((debtor, creditor, min(paid, received)))` (line 163):
a transfer is (Writer = payer, Recipient = payee, Amount). -/
abbrev Transfer := String × String × ℚ

def idxmaxA (cur : String × ℚ) : List (String × ℚ) → String × ℚ
  | [] => cur
  | x :: xs => idxmaxA (if cur.2 < x.2 then x else cur) xs

/-- pandas `Series.idxmax` (line 159): the entry of the maximum value, first
occurrence in index order on ties.  (The empty case cannot occur inside the
loop, which guards `size > 1`.) -/
def idxmaxE : List (String × ℚ) → String × ℚ
  | [] => ("", 0)
  | x :: xs => idxmaxA x xs

def idxminA (cur : String × ℚ) : List (String × ℚ) → String × ℚ
  | [] => cur
  | x :: xs => idxminA (if x.2 < cur.2 then x else cur) xs

/-- pandas `Series.idxmin` (line 160): first entry of the minimum value. -/
def idxminE : List (String × ℚ) → String × ℚ
  | [] => ("", 0)
  | x :: xs => idxminA x xs

/-- `balances[k]`: label lookup in the series (labels are unique here). -/
def getVal (l : List (String × ℚ)) (k : String) : ℚ := (l.lookup k).getD 0

/-- `balances[k] = f(balances[k])`: label assignment (lines 165 and 168). -/
def updateBal (l : List (String × ℚ)) (k : String) (f : ℚ → ℚ) : List (String × ℚ) :=
  l.map fun e => if e.1 == k then (e.1, f e.2) else e

/-- `balances.drop(index=k)` (lines 166 and 169). -/
def dropKey (l : List (String × ℚ)) (k : String) : List (String × ℚ) :=
  l.filter fun e => !(e.1 == k)

/-- The greedy clearing loop (stats.py lines 157-169), with explicit fuel.
Every iteration drops exactly one label, so `balances.length` fuel always
reaches the `size ≤ 1` exit (`settle` below); the fuel never runs out. -/
def settleAux : ℕ → List (String × ℚ) → List Transfer
  | 0, _ => []
  | fuel + 1, balances =>
    if balances.length ≤ 1 then []
    else
      let creditor := (idxmaxE balances).1
      let debtor := (idxminE balances).1
      let paid := getVal balances creditor
      let received := |getVal balances debtor|
      (debtor, creditor, min paid received) ::
        (if received ≤ paid then
          settleAux fuel (dropKey (updateBal balances creditor fun v => v - received) debtor)
        else
          settleAux fuel (dropKey (updateBal balances debtor fun v => v + paid) creditor))

/-- `while balances.size > 1: ...` (lines 158-169). -/
def settle (balances : List (String × ℚ)) : List Transfer :=
  settleAux balances.length balances

/-- Net amount a person receives from a transfer list: transfers to them as
payee minus transfers from them as payer. -/
def netReceived (p : String) (ts : List Transfer) : ℚ :=
  (ts.map fun t => (if t.2.1 = p then t.2.2 else 0) - (if t.1 = p then t.2.2 else 0)).sum

/-- Number of labels holding a non-zero balance. -/
def nonzeroCount (l : List (String × ℚ)) : ℕ :=
  (l.filter fun e => decide (e.2 ≠ 0)).length

/-- Python `round(x, 2)` scaled: round half to even on ℚ. -/
def pyRound (q : ℚ) : ℤ :=
  if q - ⌊q⌋ < 1 / 2 then ⌊q⌋
  else if 1 / 2 < q - ⌊q⌋ then ⌊q⌋ + 1
  else if ⌊q⌋ % 2 = 0 then ⌊q⌋ else ⌊q⌋ + 1

/-- `round_2` (stats.py lines 50-56) on one value: `round(x, ndigits=2)`. -/
def round_2 (q : ℚ) : ℚ := (pyRound (q * 100) : ℚ) / 100

/-- `' + '.join(x)` (stats.py line 24). -/
def joinNames (l : List String) : String := String.intercalate " + " l

/-- Lexicographic comparison of two-string index keys (pandas `sort_index`). -/
def lexLe2 (a b : String × String) : Bool :=
  decide (a.1.toList < b.1.toList) || (a.1 == b.1 && decide (a.2.toList ≤ b.2.toList))

/-- Lexicographic comparison of three-string index keys. -/
def lexLe3 (a b : String × String × String) : Bool :=
  decide (a.1.toList < b.1.toList) || (a.1 == b.1 && lexLe2 a.2 b.2)

/-- `set_index([creditor, debtor, item]).sort_index()` (stats.py line 28). -/
def sortFrame (l : List (String × String × String × ℚ)) : List (String × String × String × ℚ) :=
  List.insertionSort (fun a b => lexLe3 (a.1, a.2.1, a.2.2.1) (b.1, b.2.1, b.2.2.1) = true) l

/-- Sort a pair-indexed table by its (two-level) index. -/
def sortPairs (l : List ((String × String) × ℚ)) : List ((String × String) × ℚ) :=
  List.insertionSort (fun a b => lexLe2 a.1 b.1 = true) l

/-- Sort a list of two-level keys (the order `groupby` emits its groups in). -/
def sortPairKeys (l : List (String × String)) : List (String × String) :=
  List.insertionSort (fun a b => lexLe2 a b = true) l

/-- The table snapshotted into one report step (`Notes.add`, stats.py lines
19-31).  Only the shapes this pipeline stores. -/
inductive StepTable where
  | frame (rows : List (String × String × String × ℚ))
  | pairFrame (rows : List ((String × String) × ℚ))
  | matrix (m : List (String × List (String × ℚ)))
  | series (s : List (String × ℚ))

/-- `df_expenses` as displayed (lines 143-151): the unstacked matrix with the
appended `Total (received)` row and the `Total (paid)` column, every cell
rounded by the `round_2` at the call site.  The `Total (paid)` cell of the
`Total (received)` row is the grand total (the column was assigned after the
row was appended). -/
def expensesMatrix (rows : List Row) : List (String × List (String × ℚ)) :=
  let cs := List.insertionSort strLe (creditorLabels rows)
  let ds := List.insertionSort strLe (debtorLabels rows)
  (cs.map fun c =>
    (c, (ds.map fun d => (d, round_2 (cellTotal rows c d)))
        ++ [("Total (paid)", round_2 (totalPaid rows c))]))
   ++ [("Total (received)",
        (ds.map fun d => (d, round_2 (totalReceived rows d)))
        ++ [("Total (paid)", round_2 ((ds.map fun d => totalReceived rows d).sum))])]

/-- The `Clearing` step (lines 171-173): the transfer list indexed by (Writer,
Recipient), sorted by that index, amounts rounded by the `round_2` at the call. -/
def clearingTable (ts : List Transfer) : List ((String × String) × ℚ) :=
  (sortPairs (ts.map fun t => ((t.1, t.2.1), t.2.2))).map fun e => (e.1, round_2 e.2)

/-- `summary` (stats.py lines 107-175): the seven report steps (each one a
display-time snapshot: amounts rounded to two decimals, debtor lists joined
with `' + '`, frames sorted by their index) together with the transfer list the
clearing loop produced.  The loop itself runs on the *unrounded* balances
series; `round_2` only ever builds new step payloads. -/
def summary (records : List PRecord) : List (String × StepTable) × List Transfer :=
  let df := records.map trimRecord
  let rows := ledgerRows records
  let balances := balancesSeries records
  let transfers := settle balances
  ([("Outlay", .frame (sortFrame (df.map fun r => (r.creditor, r.debtor, r.item, round_2 r.amount)))),
    ("Outlay (expanded)", .frame (sortFrame (df.map fun r =>
      (r.creditor, joinNames (expandDebtors r), r.item, round_2 r.amount)))),
    ("Outlay (stacked)", .frame (sortFrame (rows.map fun w =>
      (w.creditor, w.debtor, w.item, round_2 w.share)))),
    ("Outlay (summed)", .pairFrame ((sortPairKeys ((rows.map fun w =>
      (w.creditor, w.debtor)).dedup)).map fun cd => (cd, round_2 (cellTotal rows cd.1 cd.2)))),
    ("Expenses", .matrix (expensesMatrix rows)),
    ("Balances", .series (balances.map fun e => (e.1, round_2 e.2))),
    ("Clearing", .pairFrame (clearingTable transfers))],
   transfers)

/-- The label list of a balances series. -/
def keysB (l : List (String × ℚ)) : List String := l.map Prod.fst

/-- The total of a balances series. -/
def sumVals (l : List (String × ℚ)) : ℚ := (l.map Prod.snd).sum

/-- Alice pays 10 for Bob. -/
def rec1 : PRecord :=
  { date := "1.1.2020", item := "lunch", creditor := "Alice", debtor := "Bob", amount := 10 }

/-- A one-record ledger: Alice pays 10 for Bob. -/
def records1 : List PRecord := [rec1]

/-- Alice pays 10 for herself. -/
def recZA : PRecord :=
  { date := "1.1.2020", item := "a", creditor := "Alice", debtor := "Alice", amount := 10 }

/-- Bob pays 10 for himself. -/
def recZB : PRecord :=
  { date := "1.1.2020", item := "b", creditor := "Bob", debtor := "Bob", amount := 10 }

/-- A ledger whose balances are all zero: Alice and Bob each pay 10 for themselves. -/
def zeroLedger : List PRecord := [recZA, recZB]

/-- Alice pays 10 split over three persons. -/
def recT : PRecord :=
  { date := "1.1.2020", item := "c", creditor := "Alice",
    debtor := "Bob + Charlie + Dave", amount := 10 }

/-- A one-record ledger whose balances are not representable in two decimals,
so display rounding visibly changes the displayed figures. -/
def thirdsLedger : List PRecord := [recT]

/-- A record whose debtor expression resolves to the empty set. -/
def emptyRec : PRecord :=
  { date := "1.1.2020", item := "d", creditor := "Alice", debtor := "Bob - Bob", amount := 10 }


/-! ### Sorting and membership helpers -/

theorem mem_sortDedup {x : String} {l : List String} : x ∈ sortDedup l ↔ x ∈ l := by
  rw [sortDedup]
  rw [(List.perm_insertionSort strLe l.dedup).mem_iff]
  exact List.mem_dedup

theorem sortDedup_nodup (l : List String) : (sortDedup l).Nodup :=
  (List.perm_insertionSort strLe l.dedup).nodup_iff.mpr (List.nodup_dedup l)

theorem sortDedup_congr {l₁ l₂ : List String} (h : ∀ x, x ∈ l₁ ↔ x ∈ l₂) :
    sortDedup l₁ = sortDedup l₂ := by
  have hp : l₁.dedup.Perm l₂.dedup :=
    (List.perm_ext_iff_of_nodup (List.nodup_dedup _) (List.nodup_dedup _)).mpr
      (fun a => by rw [List.mem_dedup, List.mem_dedup]; exact h a)
  exact List.eq_of_perm_of_sorted
    (((List.perm_insertionSort strLe _).trans hp).trans (List.perm_insertionSort strLe _).symm)
    (List.sorted_insertionSort strLe _) (List.sorted_insertionSort strLe _)

theorem contains_false_iff {l : List String} {x : String} :
    (!(l.contains x)) = true ↔ x ∉ l := by
  simp

/-! ### The resolver agrees with the spec formula when a group table is supplied -/

theorem expand_groups_some (g : GroupTable) (parts : List String) :
    expand_groups (some g) parts = .set (expandSetList g parts) := by
  cases parts with
  | nil => simp [expand_groups, expandSetList]
  | cons a l => simp [expand_groups]

theorem mem_expandSetList {g : GroupTable} {parts : List String} {x : String} :
    x ∈ expandSetList g parts ↔ ∃ t ∈ parts, x ∈ expandToken g t := by
  constructor
  · intro h
    rcases List.mem_append.mp h with h1 | h2
    · have hx := (List.mem_filter.mp h1).1
      have hnr := (List.mem_filter.mp h1).2
      refine ⟨x, hx, ?_⟩
      have hno : lookupGroup g x = none := by
        cases hl : lookupGroup g x with
        | none => rfl
        | some ms =>
          exfalso
          have : x ∈ parts.filter fun y => (lookupGroup g y).isSome :=
            List.mem_filter.mpr ⟨hx, by simp [hl]⟩
          rw [contains_false_iff] at hnr
          exact hnr this
      simp [expandToken, hno]
    · rcases List.mem_flatMap.mp h2 with ⟨t, ht, hxt⟩
      have hf := List.mem_filter.mp ht
      refine ⟨t, hf.1, ?_⟩
      cases hl : lookupGroup g t with
      | none => simp [hl] at hf
      | some ms =>
        rw [hl] at hxt
        simp [expandToken, hl]
        simpa using hxt
  · rintro ⟨t, ht, hxt⟩
    cases hl : lookupGroup g t with
    | none =>
      have hx : x = t := by simpa [expandToken, hl] using hxt
      subst hx
      refine List.mem_append.mpr (Or.inl (List.mem_filter.mpr ⟨ht, ?_⟩))
      rw [contains_false_iff]
      intro hc
      have := (List.mem_filter.mp hc).2
      simp [hl] at this
    | some ms =>
      refine List.mem_append.mpr (Or.inr (List.mem_flatMap.mpr ⟨t, ?_, ?_⟩))
      · exact List.mem_filter.mpr ⟨ht, by simp [hl]⟩
      · rw [hl]
        simpa [expandToken, hl] using hxt

theorem compute_recipients_some (address : String) (g : GroupTable) :
    compute_recipients address (some g) = .ok (resolveSpec address g) := by
  rw [compute_recipients, expand_groups_some, expand_groups_some]
  show Except.ok (sortDedup _) = Except.ok _
  rw [resolveSpec]
  congr 1
  apply sortDedup_congr
  intro x
  constructor
  · intro h
    have h1 := (List.mem_filter.mp h).1
    have h2 := (List.mem_filter.mp h).2
    rw [contains_false_iff] at h2
    refine List.mem_filter.mpr ⟨?_, ?_⟩
    · rcases mem_expandSetList.mp h1 with ⟨t, ht, hxt⟩
      exact List.mem_flatMap.mpr ⟨t, ht, hxt⟩
    · rw [contains_false_iff]
      intro hc
      rcases List.mem_flatMap.mp hc with ⟨t, ht, hxt⟩
      exact h2 (mem_expandSetList.mpr ⟨t, ht, hxt⟩)
  · intro h
    have h1 := (List.mem_filter.mp h).1
    have h2 := (List.mem_filter.mp h).2
    rw [contains_false_iff] at h2
    refine List.mem_filter.mpr ⟨?_, ?_⟩
    · rcases List.mem_flatMap.mp h1 with ⟨t, ht, hxt⟩
      exact mem_expandSetList.mpr ⟨t, ht, hxt⟩
    · rw [contains_false_iff]
      intro hc
      rcases mem_expandSetList.mp hc with ⟨t, ht, hxt⟩
      exact h2 (List.mem_flatMap.mpr ⟨t, ht, hxt⟩)


/-! ### Sum bookkeeping -/

theorem sum_map_sub {α : Type} (l : List α) (f g : α → ℚ) :
    (l.map fun x => f x - g x).sum = (l.map f).sum - (l.map g).sum := by
  induction l with
  | nil => simp
  | cons a t ih => simp [ih]; ring

theorem sum_map_add {α : Type} (l : List α) (f g : α → ℚ) :
    (l.map fun x => f x + g x).sum = (l.map f).sum + (l.map g).sum := by
  induction l with
  | nil => simp
  | cons a t ih => simp [ih]; ring

theorem sum_ite_zero (L : List String) (b : String) (c : ℚ) (hb : b ∉ L) :
    (L.map fun a => if b = a then c else 0).sum = 0 := by
  induction L with
  | nil => simp
  | cons a t ih =>
    have hba : b ≠ a := fun h => hb (h ▸ List.mem_cons_self a t)
    have hbt : b ∉ t := fun h => hb (List.mem_cons_of_mem a h)
    simp [hba, ih hbt]

theorem sum_ite_single (L : List String) (b : String) (c : ℚ) (hb : b ∈ L) (hnd : L.Nodup) :
    (L.map fun a => if b = a then c else 0).sum = c := by
  induction L with
  | nil => simp at hb
  | cons a t ih =>
    rcases List.mem_cons.mp hb with rfl | hbt
    · have hbt : b ∉ t := (List.nodup_cons.mp hnd).1
      simp [sum_ite_zero t b c hbt]
    · have hba : b ≠ a := by
        rintro rfl
        exact (List.nodup_cons.mp hnd).1 hbt
      simp [hba, ih hbt (List.nodup_cons.mp hnd).2]

/-- Bucketing: summing, over the distinct keys of `L`, the values of the `xs`
whose key is that key, totals the values of all of `xs`. -/
theorem sum_buckets {β : Type} (L : List String) (hL : L.Nodup) (xs : List β)
    (key : β → String) (val : β → ℚ) (hk : ∀ x ∈ xs, key x ∈ L) :
    (L.map fun a => ((xs.filter fun x => key x == a).map val).sum).sum = (xs.map val).sum := by
  induction xs with
  | nil => simp
  | cons x t ih =>
    have hx : key x ∈ L := hk x (List.mem_cons_self x t)
    have ht : ∀ y ∈ t, key y ∈ L := fun y hy => hk y (List.mem_cons_of_mem x hy)
    have hsplit : ∀ a : String,
        (((x :: t).filter fun z => key z == a).map val).sum
          = (if key x = a then val x else 0) + ((t.filter fun z => key z == a).map val).sum := by
      intro a
      by_cases h : key x = a
      · simp [List.filter_cons, h]
      · simp [List.filter_cons, h]
    calc (L.map fun a => (((x :: t).filter fun z => key z == a).map val).sum).sum
        = (L.map fun a => (if key x = a then val x else 0)
            + ((t.filter fun z => key z == a).map val).sum).sum := by
          exact congrArg List.sum (List.map_congr_left fun a _ => hsplit a)
      _ = (L.map fun a => if key x = a then val x else 0).sum
            + (L.map fun a => ((t.filter fun z => key z == a).map val).sum).sum :=
          sum_map_add L _ _
      _ = val x + (t.map val).sum := by rw [sum_ite_single L (key x) (val x) hx hL, ih ht]
      _ = ((x :: t).map val).sum := by simp

/-! ### Conservation of the balances -/

theorem cellTotal_split (rows : List Row) (c d : String) :
    cellTotal rows c d
      = (((rows.filter fun w => w.creditor == c).filter fun w => w.debtor == d).map Row.share).sum := by
  rw [cellTotal, List.filter_filter]
  congr 2
  exact List.filter_congr fun w _ => by rw [Bool.and_comm]

theorem totalPaid_eq (rows : List Row) (p : String) :
    totalPaid rows p = ((rows.filter fun w => w.creditor == p).map Row.share).sum := by
  rw [totalPaid]
  have h1 : ∀ d ∈ debtorLabels rows, cellTotal rows p d
      = (((rows.filter fun w => w.creditor == p).filter fun w => w.debtor == d).map Row.share).sum :=
    fun d _ => cellTotal_split rows p d
  rw [List.map_congr_left h1]
  exact sum_buckets (debtorLabels rows) (List.nodup_dedup _) _ Row.debtor Row.share
    (fun w hw => List.mem_dedup.mpr (List.mem_map.mpr ⟨w, (List.mem_filter.mp hw).1, rfl⟩))

theorem totalReceived_eq (rows : List Row) (p : String) :
    totalReceived rows p = ((rows.filter fun w => w.debtor == p).map Row.share).sum := by
  rw [totalReceived]
  have h1 : ∀ c ∈ creditorLabels rows, cellTotal rows c p
      = (((rows.filter fun w => w.debtor == p).filter fun w => w.creditor == c).map Row.share).sum := by
    intro c _
    rw [cellTotal, List.filter_filter]
  rw [List.map_congr_left h1]
  exact sum_buckets (creditorLabels rows) (List.nodup_dedup _) _ Row.creditor Row.share
    (fun w hw => List.mem_dedup.mpr (List.mem_map.mpr ⟨w, (List.mem_filter.mp hw).1, rfl⟩))

theorem sum_balances_zero (rows : List Row) :
    ((personsSorted rows).map fun p => balance rows p).sum = 0 := by
  have hnd : (personsSorted rows).Nodup := sortDedup_nodup _
  have hb : ∀ p ∈ personsSorted rows, balance rows p
      = ((rows.filter fun w => w.creditor == p).map Row.share).sum
        - ((rows.filter fun w => w.debtor == p).map Row.share).sum := by
    intro p _
    rw [balance, totalPaid_eq, totalReceived_eq]
  rw [List.map_congr_left hb, sum_map_sub]
  have hp : (((personsSorted rows).map fun p =>
      ((rows.filter fun w => w.creditor == p).map Row.share).sum).sum) = (rows.map Row.share).sum :=
    sum_buckets _ hnd rows Row.creditor Row.share
      (fun w hw => mem_sortDedup.mpr (List.mem_append.mpr (Or.inl (List.mem_map.mpr ⟨w, hw, rfl⟩))))
  have hr : (((personsSorted rows).map fun p =>
      ((rows.filter fun w => w.debtor == p).map Row.share).sum).sum) = (rows.map Row.share).sum :=
    sum_buckets _ hnd rows Row.debtor Row.share
      (fun w hw => mem_sortDedup.mpr (List.mem_append.mpr (Or.inr (List.mem_map.mpr ⟨w, hw, rfl⟩))))
  rw [hp, hr, sub_self]

theorem balancesSeries_sum_zero (records : List PRecord) :
    sumVals (balancesSeries records) = 0 := by
  rw [sumVals, balancesSeries, List.map_map]
  exact sum_balances_zero (ledgerRows records)

theorem keysB_balancesSeries (records : List PRecord) :
    keysB (balancesSeries records) = personsSorted (ledgerRows records) := by
  have h : (Prod.fst ∘ fun p : String => (p, balance (ledgerRows records) p)) = id := rfl
  rw [keysB, balancesSeries, List.map_map, h, List.map_id]

theorem nodup_keysB_balancesSeries (records : List PRecord) :
    (keysB (balancesSeries records)).Nodup := by
  rw [keysB_balancesSeries]
  exact sortDedup_nodup _


/-! ### idxmax / idxmin -/

theorem idxmaxA_mem (cur : String × ℚ) (xs : List (String × ℚ)) :
    idxmaxA cur xs = cur ∨ idxmaxA cur xs ∈ xs := by
  induction xs generalizing cur with
  | nil => exact Or.inl rfl
  | cons x l ih =>
    rw [idxmaxA]
    rcases ih (if cur.2 < x.2 then x else cur) with h | h
    · rw [h]
      by_cases hc : cur.2 < x.2
      · rw [if_pos hc]; exact Or.inr (List.mem_cons_self x l)
      · rw [if_neg hc]; exact Or.inl rfl
    · exact Or.inr (List.mem_cons_of_mem x h)

theorem le_idxmaxA (cur : String × ℚ) (xs : List (String × ℚ)) :
    ∀ y ∈ cur :: xs, y.2 ≤ (idxmaxA cur xs).2 := by
  induction xs generalizing cur with
  | nil =>
    intro y hy
    rcases List.mem_cons.mp hy with rfl | h
    · exact le_refl _
    · simp at h
  | cons x l ih =>
    intro y hy
    rw [idxmaxA]
    have hnext := ih (if cur.2 < x.2 then x else cur)
    have hhead : (if cur.2 < x.2 then x else cur).2
        ≤ (idxmaxA (if cur.2 < x.2 then x else cur) l).2 :=
      hnext _ (List.mem_cons_self _ _)
    have h1 : cur.2 ≤ (if cur.2 < x.2 then x else cur).2 := by
      by_cases hc : cur.2 < x.2
      · rw [if_pos hc]; exact le_of_lt hc
      · rw [if_neg hc]
    have h2 : x.2 ≤ (if cur.2 < x.2 then x else cur).2 := by
      by_cases hc : cur.2 < x.2
      · rw [if_pos hc]
      · rw [if_neg hc]; exact le_of_not_lt hc
    rcases List.mem_cons.mp hy with rfl | hy'
    · exact h1.trans hhead
    · rcases List.mem_cons.mp hy' with rfl | hy''
      · exact h2.trans hhead
      · exact hnext y (List.mem_cons_of_mem _ hy'')

theorem idxminA_mem (cur : String × ℚ) (xs : List (String × ℚ)) :
    idxminA cur xs = cur ∨ idxminA cur xs ∈ xs := by
  induction xs generalizing cur with
  | nil => exact Or.inl rfl
  | cons x l ih =>
    rw [idxminA]
    rcases ih (if x.2 < cur.2 then x else cur) with h | h
    · rw [h]
      by_cases hc : x.2 < cur.2
      · rw [if_pos hc]; exact Or.inr (List.mem_cons_self x l)
      · rw [if_neg hc]; exact Or.inl rfl
    · exact Or.inr (List.mem_cons_of_mem x h)

theorem idxminA_le (cur : String × ℚ) (xs : List (String × ℚ)) :
    ∀ y ∈ cur :: xs, (idxminA cur xs).2 ≤ y.2 := by
  induction xs generalizing cur with
  | nil =>
    intro y hy
    rcases List.mem_cons.mp hy with rfl | h
    · exact le_refl _
    · simp at h
  | cons x l ih =>
    intro y hy
    rw [idxminA]
    have hnext := ih (if x.2 < cur.2 then x else cur)
    have hhead : (idxminA (if x.2 < cur.2 then x else cur) l).2
        ≤ (if x.2 < cur.2 then x else cur).2 :=
      hnext _ (List.mem_cons_self _ _)
    have h1 : (if x.2 < cur.2 then x else cur).2 ≤ cur.2 := by
      by_cases hc : x.2 < cur.2
      · rw [if_pos hc]; exact le_of_lt hc
      · rw [if_neg hc]
    have h2 : (if x.2 < cur.2 then x else cur).2 ≤ x.2 := by
      by_cases hc : x.2 < cur.2
      · rw [if_pos hc]
      · rw [if_neg hc]; exact le_of_not_lt hc
    rcases List.mem_cons.mp hy with rfl | hy'
    · exact hhead.trans h1
    · rcases List.mem_cons.mp hy' with rfl | hy''
      · exact hhead.trans h2
      · exact hnext y (List.mem_cons_of_mem _ hy'')

theorem idxmaxE_mem : ∀ {l : List (String × ℚ)}, l ≠ [] → idxmaxE l ∈ l
  | [], h => absurd rfl h
  | x :: xs, _ => by
    rw [idxmaxE]
    rcases idxmaxA_mem x xs with h | h
    · rw [h]; exact List.mem_cons_self _ _
    · exact List.mem_cons_of_mem _ h

theorem idxminE_mem : ∀ {l : List (String × ℚ)}, l ≠ [] → idxminE l ∈ l
  | [], h => absurd rfl h
  | x :: xs, _ => by
    rw [idxminE]
    rcases idxminA_mem x xs with h | h
    · rw [h]; exact List.mem_cons_self _ _
    · exact List.mem_cons_of_mem _ h

theorem le_idxmaxE {l : List (String × ℚ)} {y : String × ℚ} (hy : y ∈ l) :
    y.2 ≤ (idxmaxE l).2 := by
  cases l with
  | nil => simp at hy
  | cons x xs => exact le_idxmaxA x xs y hy

theorem idxminE_le {l : List (String × ℚ)} {y : String × ℚ} (hy : y ∈ l) :
    (idxminE l).2 ≤ y.2 := by
  cases l with
  | nil => simp at hy
  | cons x xs => exact idxminA_le x xs y hy

/-! ### The balances association list -/

theorem keysB_cons (x : String × ℚ) (t : List (String × ℚ)) :
    keysB (x :: t) = x.1 :: keysB t := rfl

theorem keysB_nil : keysB [] = [] := rfl

theorem updateBal_cons (x : String × ℚ) (t : List (String × ℚ)) (k : String) (f : ℚ → ℚ) :
    updateBal (x :: t) k f = (if x.1 == k then (x.1, f x.2) else x) :: updateBal t k f := rfl

theorem dropKey_cons (x : String × ℚ) (t : List (String × ℚ)) (k : String) :
    dropKey (x :: t) k = if x.1 == k then dropKey t k else x :: dropKey t k := by
  rw [dropKey, List.filter_cons]
  by_cases h : x.1 == k
  · rw [h, Bool.not_true, if_neg (by simp)]
    rfl
  · rw [Bool.not_eq_true] at h
    rw [h, Bool.not_false, if_pos rfl, if_neg (by simp [h])]
    rfl

theorem getVal_cons_self {k : String} {v : ℚ} {t : List (String × ℚ)} :
    getVal ((k, v) :: t) k = v := by
  simp [getVal, List.lookup]

theorem getVal_cons_ne {k a : String} {v : ℚ} {t : List (String × ℚ)} (h : a ≠ k) :
    getVal ((k, v) :: t) a = getVal t a := by
  have hb : (a == k) = false := beq_eq_false_iff_ne.mpr h
  simp [getVal, List.lookup, hb]

theorem lookup_eq_of_mem_nodup {l : List (String × ℚ)} (hnd : (keysB l).Nodup) :
    ∀ e ∈ l, l.lookup e.1 = some e.2 := by
  induction l with
  | nil => intro e he; simp at he
  | cons x t ih =>
    rw [keysB_cons] at hnd
    have hx : x.1 ∉ keysB t := (List.nodup_cons.mp hnd).1
    have hnd' : (keysB t).Nodup := (List.nodup_cons.mp hnd).2
    intro e he
    obtain ⟨xk, xv⟩ := x
    rcases List.mem_cons.mp he with rfl | het
    · simp [List.lookup]
    · have hne : e.1 ≠ xk := fun hc => hx (hc ▸ List.mem_map.mpr ⟨e, het, rfl⟩)
      have hb : (e.1 == xk) = false := beq_eq_false_iff_ne.mpr hne
      simp [List.lookup, hb, ih hnd' e het]

theorem getVal_of_mem_nodup {l : List (String × ℚ)} (hnd : (keysB l).Nodup)
    {e : String × ℚ} (he : e ∈ l) : getVal l e.1 = e.2 := by
  rw [getVal, lookup_eq_of_mem_nodup hnd e he, Option.getD_some]

theorem keysB_updateBal (l : List (String × ℚ)) (k : String) (f : ℚ → ℚ) :
    keysB (updateBal l k f) = keysB l := by
  simp only [keysB, updateBal, List.map_map]
  refine List.map_congr_left fun e _ => ?_
  by_cases h : e.1 = k <;> simp [h]

theorem keysB_dropKey (l : List (String × ℚ)) (k : String) :
    keysB (dropKey l k) = (keysB l).filter fun a => !(a == k) := by
  induction l with
  | nil => rfl
  | cons x t ih =>
    rw [dropKey_cons, keysB_cons, List.filter_cons]
    by_cases h : x.1 == k
    · rw [if_pos h, h, Bool.not_true, if_neg (by simp)]
      exact ih
    · rw [Bool.not_eq_true] at h
      rw [if_neg (by simp [h]), keysB_cons, h, Bool.not_false, if_pos rfl, ih]

theorem mem_keysB_dropKey {l : List (String × ℚ)} {k a : String} :
    a ∈ keysB (dropKey l k) ↔ a ∈ keysB l ∧ a ≠ k := by
  rw [keysB_dropKey, List.mem_filter]
  simp

theorem updateBal_id {l : List (String × ℚ)} {k : String} (f : ℚ → ℚ)
    (hk : k ∉ keysB l) : updateBal l k f = l := by
  induction l with
  | nil => rfl
  | cons x t ih =>
    rw [keysB_cons] at hk
    have h1 : x.1 ≠ k := fun hc => hk (hc ▸ List.mem_cons_self _ _)
    have h2 : k ∉ keysB t := fun hc => hk (List.mem_cons_of_mem _ hc)
    rw [updateBal_cons, if_neg (by simp [h1]), ih h2]

theorem dropKey_id {l : List (String × ℚ)} {k : String}
    (hk : k ∉ keysB l) : dropKey l k = l := by
  induction l with
  | nil => rfl
  | cons x t ih =>
    rw [keysB_cons] at hk
    have h1 : x.1 ≠ k := fun hc => hk (hc ▸ List.mem_cons_self _ _)
    have h2 : k ∉ keysB t := fun hc => hk (List.mem_cons_of_mem _ hc)
    rw [dropKey_cons, if_neg (by simp [h1]), ih h2]

theorem mem_keysB_cons_elim {xk k : String} {xv : ℚ} {t : List (String × ℚ)}
    (hk : k ∈ keysB ((xk, xv) :: t)) (hne : xk ≠ k) : k ∈ keysB t := by
  rw [keysB_cons] at hk
  rcases List.mem_cons.mp hk with hc | hc
  · exact absurd hc.symm hne
  · exact hc

theorem getVal_updateBal_self {l : List (String × ℚ)} {k : String} (f : ℚ → ℚ)
    (hk : k ∈ keysB l) : getVal (updateBal l k f) k = f (getVal l k) := by
  induction l with
  | nil => simp [keysB] at hk
  | cons x t ih =>
    obtain ⟨xk, xv⟩ := x
    by_cases h : xk = k
    · subst h
      rw [updateBal_cons, if_pos (by simp)]
      show getVal ((xk, f xv) :: updateBal t xk f) xk = f (getVal ((xk, xv) :: t) xk)
      rw [getVal_cons_self, getVal_cons_self]
    · have hk' : k ∈ keysB t := mem_keysB_cons_elim hk h
      rw [updateBal_cons, if_neg (by simp [h])]
      rw [getVal_cons_ne (fun hc => h hc.symm), getVal_cons_ne (fun hc => h hc.symm)]
      exact ih hk'

theorem getVal_updateBal_ne {l : List (String × ℚ)} {k a : String} (f : ℚ → ℚ)
    (h : a ≠ k) : getVal (updateBal l k f) a = getVal l a := by
  induction l with
  | nil => rfl
  | cons x t ih =>
    obtain ⟨xk, xv⟩ := x
    by_cases hx : xk = k
    · subst hx
      rw [updateBal_cons, if_pos (by simp)]
      show getVal ((xk, f xv) :: updateBal t xk f) a = _
      rw [getVal_cons_ne h, getVal_cons_ne h]
      exact ih
    · rw [updateBal_cons, if_neg (by simp [hx])]
      by_cases ha : a = xk
      · subst ha
        rw [getVal_cons_self, getVal_cons_self]
      · rw [getVal_cons_ne ha, getVal_cons_ne ha]
        exact ih

theorem getVal_dropKey_ne {l : List (String × ℚ)} {k a : String} (h : a ≠ k) :
    getVal (dropKey l k) a = getVal l a := by
  induction l with
  | nil => rfl
  | cons x t ih =>
    obtain ⟨xk, xv⟩ := x
    by_cases hx : xk = k
    · subst hx
      rw [dropKey_cons, if_pos (by simp)]
      rw [getVal_cons_ne h]
      exact ih
    · rw [dropKey_cons, if_neg (by simp [hx])]
      by_cases ha : a = xk
      · subst ha
        rw [getVal_cons_self, getVal_cons_self]
      · rw [getVal_cons_ne ha, getVal_cons_ne ha]
        exact ih

theorem sumVals_cons (x : String × ℚ) (t : List (String × ℚ)) :
    sumVals (x :: t) = x.2 + sumVals t := by
  simp [sumVals]

theorem sumVals_updateBal {l : List (String × ℚ)} {k : String} (f : ℚ → ℚ)
    (hnd : (keysB l).Nodup) (hk : k ∈ keysB l) :
    sumVals (updateBal l k f) = sumVals l - getVal l k + f (getVal l k) := by
  induction l with
  | nil => simp [keysB] at hk
  | cons x t ih =>
    obtain ⟨xk, xv⟩ := x
    rw [keysB_cons] at hnd
    have hx : ((xk, xv) : String × ℚ).1 ∉ keysB t := (List.nodup_cons.mp hnd).1
    have hnd' : (keysB t).Nodup := (List.nodup_cons.mp hnd).2
    by_cases h : xk = k
    · subst h
      rw [updateBal_cons, if_pos (by simp), updateBal_id f hx]
      show sumVals ((xk, f xv) :: t) = _
      rw [sumVals_cons, sumVals_cons, getVal_cons_self]
      ring
    · have hk' : k ∈ keysB t := mem_keysB_cons_elim hk h
      rw [updateBal_cons, if_neg (by simp [h])]
      rw [sumVals_cons, sumVals_cons, getVal_cons_ne (fun hc => h hc.symm), ih hnd' hk']
      ring

theorem sumVals_dropKey {l : List (String × ℚ)} {k : String}
    (hnd : (keysB l).Nodup) (hk : k ∈ keysB l) :
    sumVals (dropKey l k) = sumVals l - getVal l k := by
  induction l with
  | nil => simp [keysB] at hk
  | cons x t ih =>
    obtain ⟨xk, xv⟩ := x
    rw [keysB_cons] at hnd
    have hx : ((xk, xv) : String × ℚ).1 ∉ keysB t := (List.nodup_cons.mp hnd).1
    have hnd' : (keysB t).Nodup := (List.nodup_cons.mp hnd).2
    by_cases h : xk = k
    · subst h
      rw [dropKey_cons, if_pos (by simp), dropKey_id hx]
      rw [sumVals_cons, getVal_cons_self]
      ring
    · have hk' : k ∈ keysB t := mem_keysB_cons_elim hk h
      rw [dropKey_cons, if_neg (by simp [h])]
      rw [sumVals_cons, sumVals_cons, getVal_cons_ne (fun hc => h hc.symm), ih hnd' hk']
      ring

theorem length_updateBal (l : List (String × ℚ)) (k : String) (f : ℚ → ℚ) :
    (updateBal l k f).length = l.length := List.length_map l _

theorem length_dropKey {l : List (String × ℚ)} {k : String}
    (hnd : (keysB l).Nodup) (hk : k ∈ keysB l) :
    (dropKey l k).length + 1 = l.length := by
  induction l with
  | nil => simp [keysB] at hk
  | cons x t ih =>
    obtain ⟨xk, xv⟩ := x
    rw [keysB_cons] at hnd
    have hx : ((xk, xv) : String × ℚ).1 ∉ keysB t := (List.nodup_cons.mp hnd).1
    have hnd' : (keysB t).Nodup := (List.nodup_cons.mp hnd).2
    by_cases h : xk = k
    · subst h
      rw [dropKey_cons, if_pos (by simp), dropKey_id hx, List.length_cons]
    · have hk' : k ∈ keysB t := mem_keysB_cons_elim hk h
      rw [dropKey_cons, if_neg (by simp [h]), List.length_cons, List.length_cons]
      rw [← ih hnd' hk']


/-! ### Sign of the extremes under conservation -/

theorem sumVals_le_of_forall_le {l : List (String × ℚ)} {b : ℚ}
    (h : ∀ y ∈ l, y.2 ≤ b) : sumVals l ≤ l.length * b := by
  induction l with
  | nil => simp [sumVals]
  | cons x t ih =>
    rw [sumVals_cons, List.length_cons]
    have hx := h x (List.mem_cons_self x t)
    have ht := ih fun y hy => h y (List.mem_cons_of_mem x hy)
    push_cast
    nlinarith

theorem le_sumVals_of_forall_le {l : List (String × ℚ)} {b : ℚ}
    (h : ∀ y ∈ l, b ≤ y.2) : (l.length : ℚ) * b ≤ sumVals l := by
  induction l with
  | nil => simp [sumVals]
  | cons x t ih =>
    rw [sumVals_cons, List.length_cons]
    have hx := h x (List.mem_cons_self x t)
    have ht := ih fun y hy => h y (List.mem_cons_of_mem x hy)
    push_cast
    nlinarith

theorem idxmaxE_snd_nonneg {l : List (String × ℚ)} (hne : l ≠ [])
    (hs : sumVals l = 0) : 0 ≤ (idxmaxE l).2 := by
  by_contra hneg
  push_neg at hneg
  have hall : ∀ y ∈ l, y.2 ≤ (idxmaxE l).2 := fun y hy => le_idxmaxE hy
  have hle := sumVals_le_of_forall_le hall
  rw [hs] at hle
  have hlen : 0 < (l.length : ℚ) := by
    have : 0 < l.length := List.length_pos.mpr hne
    exact_mod_cast this
  nlinarith

theorem idxminE_snd_nonpos {l : List (String × ℚ)} (hne : l ≠ [])
    (hs : sumVals l = 0) : (idxminE l).2 ≤ 0 := by
  by_contra hpos
  push_neg at hpos
  have hall : ∀ y ∈ l, (idxminE l).2 ≤ y.2 := fun y hy => idxminE_le hy
  have hle := le_sumVals_of_forall_le hall
  rw [hs] at hle
  have hlen : 0 < (l.length : ℚ) := by
    have : 0 < l.length := List.length_pos.mpr hne
    exact_mod_cast this
  nlinarith

/-! ### The clearing loop: boundedness and per-person bookkeeping -/

theorem mem_keysB_of_mem_dropKey_updateBal {l : List (String × ℚ)} {k1 k2 a : String}
    {f : ℚ → ℚ} (h : a ∈ keysB (dropKey (updateBal l k1 f) k2)) : a ∈ keysB l := by
  rw [keysB_dropKey, keysB_updateBal] at h
  exact (List.mem_filter.mp h).1

theorem settleAux_mem_keys : ∀ (fuel : ℕ) (l : List (String × ℚ)) (t : Transfer),
    t ∈ settleAux fuel l → t.1 ∈ keysB l ∧ t.2.1 ∈ keysB l := by
  intro fuel
  induction fuel with
  | zero => intro l t ht; simp [settleAux] at ht
  | succ n ih =>
    intro l t ht
    rw [settleAux] at ht
    by_cases hlen : l.length ≤ 1
    · rw [if_pos hlen] at ht; simp at ht
    · rw [if_neg hlen] at ht
      have hne : l ≠ [] := by
        rintro rfl
        exact hlen (by simp)
      simp only [List.mem_cons] at ht
      rcases ht with rfl | htail
      · exact ⟨List.mem_map.mpr ⟨idxminE l, idxminE_mem hne, rfl⟩,
          List.mem_map.mpr ⟨idxmaxE l, idxmaxE_mem hne, rfl⟩⟩
      · by_cases hbr : |getVal l (idxminE l).1| ≤ getVal l (idxmaxE l).1
        · rw [if_pos hbr] at htail
          obtain ⟨h1, h2⟩ := ih _ t htail
          exact ⟨mem_keysB_of_mem_dropKey_updateBal h1, mem_keysB_of_mem_dropKey_updateBal h2⟩
        · rw [if_neg hbr] at htail
          obtain ⟨h1, h2⟩ := ih _ t htail
          exact ⟨mem_keysB_of_mem_dropKey_updateBal h1, mem_keysB_of_mem_dropKey_updateBal h2⟩

theorem netReceived_nil (p : String) : netReceived p [] = 0 := rfl

theorem netReceived_cons (p : String) (t : Transfer) (ts : List Transfer) :
    netReceived p (t :: ts)
      = ((if t.2.1 = p then t.2.2 else 0) - (if t.1 = p then t.2.2 else 0))
        + netReceived p ts := by
  simp [netReceived]

theorem netReceived_eq_zero {p : String} {ts : List Transfer}
    (h : ∀ t ∈ ts, t.1 ≠ p ∧ t.2.1 ≠ p) : netReceived p ts = 0 := by
  induction ts with
  | nil => rfl
  | cons t ts ih =>
    rw [netReceived_cons, ih fun s hs => h s (List.mem_cons_of_mem t hs)]
    have h1 := h t (List.mem_cons_self t ts)
    simp [h1.1, h1.2]


/-- The central bookkeeping invariant of the clearing loop: with distinct
labels and a conserving (zero-total) balances series, the emitted transfers pay
every person exactly their balance. -/
theorem settleAux_net : ∀ (fuel : ℕ) (l : List (String × ℚ)),
    l.length ≤ fuel → (keysB l).Nodup → sumVals l = 0 →
    ∀ p ∈ keysB l, netReceived p (settleAux fuel l) = getVal l p := by
  intro fuel
  induction fuel with
  | zero =>
    intro l hlen _ _ p hp
    have hnil : l = [] := List.length_eq_zero.mp (Nat.le_zero.mp hlen)
    subst hnil
    simp [keysB] at hp
  | succ n ih =>
    intro l hlen hnd hsum p hp
    by_cases hlen1 : l.length ≤ 1
    · rw [settleAux, if_pos hlen1, netReceived_nil]
      match l, hp, hsum with
      | [(k, v)], hp, hsum =>
        have hpk : p = k := by simpa [keysB] using hp
        have hv : v = 0 := by simpa [sumVals] using hsum
        subst hpk
        rw [getVal_cons_self, hv]
    · rw [settleAux, if_neg hlen1]
      have hne : l ≠ [] := by
        rintro rfl
        exact hlen1 (by simp)
      have hcm : idxmaxE l ∈ l := idxmaxE_mem hne
      have hdm : idxminE l ∈ l := idxminE_mem hne
      set c := (idxmaxE l).1 with hcdef
      set d := (idxminE l).1 with hddef
      have hck : c ∈ keysB l := List.mem_map.mpr ⟨_, hcm, rfl⟩
      have hdk : d ∈ keysB l := List.mem_map.mpr ⟨_, hdm, rfl⟩
      have hgc : getVal l c = (idxmaxE l).2 := getVal_of_mem_nodup hnd hcm
      have hgd : getVal l d = (idxminE l).2 := getVal_of_mem_nodup hnd hdm
      have hcpos : 0 ≤ getVal l c := hgc ▸ idxmaxE_snd_nonneg hne hsum
      have hdneg : getVal l d ≤ 0 := hgd ▸ idxminE_snd_nonpos hne hsum
      have habs : |getVal l d| = -getVal l d := abs_of_nonpos hdneg
      have hcd_val : c = d → getVal l c = 0 := by
        intro hcd
        have h1 : 0 ≤ getVal l c := hcpos
        have h2 : getVal l c ≤ 0 := by rw [hcd]; exact hdneg
        linarith
      show netReceived p ((d, c, min (getVal l c) |getVal l d|) ::
        (if |getVal l d| ≤ getVal l c then
          settleAux n (dropKey (updateBal l c fun v => v - |getVal l d|) d)
        else
          settleAux n (dropKey (updateBal l d fun v => v + getVal l c) c))) = getVal l p
      by_cases hbr : |getVal l d| ≤ getVal l c
      · rw [if_pos hbr]
        have hamin : min (getVal l c) |getVal l d| = |getVal l d| := min_eq_right hbr
        set r := |getVal l d| with hrdef
        set l2 := dropKey (updateBal l c fun v => v - r) d with hl2
        have hkeys2 : keysB l2 = (keysB l).filter fun a => !(a == d) := by
          rw [hl2, keysB_dropKey, keysB_updateBal]
        have hnd2 : (keysB l2).Nodup := by
          rw [hkeys2]; exact hnd.filter _
        have hdku : d ∈ keysB (updateBal l c fun v => v - r) := by
          rw [keysB_updateBal]; exact hdk
        have hndu : (keysB (updateBal l c fun v => v - r)).Nodup := by
          rw [keysB_updateBal]; exact hnd
        have hlen2 : l2.length ≤ n := by
          have h1 := length_dropKey hndu hdku
          rw [← hl2, length_updateBal] at h1
          omega
        have hsum2 : sumVals l2 = 0 := by
          rw [hl2, sumVals_dropKey hndu hdku, sumVals_updateBal _ hnd hck, hsum]
          by_cases hcd : c = d
          · have h0 : getVal l c = 0 := hcd_val hcd
            have hr0 : r = 0 := by rw [hrdef, ← hcd, h0, abs_zero]
            rw [← hcd, getVal_updateBal_self _ hck, h0, hr0]
            ring
          · rw [getVal_updateBal_ne _ (fun hc => hcd hc.symm), habs]
            ring
        have hmem2 : ∀ a, a ∈ keysB l2 ↔ a ∈ keysB l ∧ a ≠ d := by
          intro a
          rw [hkeys2, List.mem_filter]
          simp
        simp only [netReceived_cons, hamin]
        by_cases hpd : p = d
        · have hnotin : p ∉ keysB l2 := fun hc => ((hmem2 p).mp hc).2 hpd
          have hzero : netReceived p (settleAux n l2) = 0 :=
            netReceived_eq_zero fun t ht => by
              obtain ⟨h1, h2⟩ := settleAux_mem_keys n l2 t ht
              exact ⟨fun hc => hnotin (hc ▸ h1), fun hc => hnotin (hc ▸ h2)⟩
          rw [hzero]
          by_cases hcp : c = p
          · have hcd : c = d := hcp.trans hpd
            have h0 : getVal l c = 0 := hcd_val hcd
            have hr0 : r = 0 := by rw [hrdef, ← hcd, h0, abs_zero]
            rw [if_pos hcp, if_pos hpd.symm, hr0, ← hcp, h0]
            ring
          · rw [if_neg hcp, if_pos hpd.symm, habs, hpd]
            ring
        · have hp2 : p ∈ keysB l2 := (hmem2 p).mpr ⟨hp, hpd⟩
          have hrec := ih l2 hlen2 hnd2 hsum2 p hp2
          rw [hrec]
          have hval2 : getVal l2 p = if p = c then getVal l c - r else getVal l p := by
            rw [hl2, getVal_dropKey_ne hpd]
            by_cases hpc : p = c
            · rw [if_pos hpc, hpc, getVal_updateBal_self _ hck]
            · rw [if_neg hpc, getVal_updateBal_ne _ hpc]
          rw [hval2]
          by_cases hpc : p = c
          · rw [if_pos hpc, if_pos hpc.symm, if_neg (fun hc => hpd hc.symm), ← hpc]
            ring
          · rw [if_neg hpc, if_neg (fun hc => hpc hc.symm), if_neg (fun hc => hpd hc.symm)]
            ring
      · rw [if_neg hbr]
        push_neg at hbr
        have hamin : min (getVal l c) |getVal l d| = getVal l c := min_eq_left (le_of_lt hbr)
        have hcd : c ≠ d := by
          intro hcd
          have h0 : getVal l c = 0 := hcd_val hcd
          rw [← hcd, h0, abs_zero] at hbr
          exact lt_irrefl 0 hbr
        set l2 := dropKey (updateBal l d fun v => v + getVal l c) c with hl2
        have hkeys2 : keysB l2 = (keysB l).filter fun x => !(x == c) := by
          rw [hl2, keysB_dropKey, keysB_updateBal]
        have hnd2 : (keysB l2).Nodup := by
          rw [hkeys2]; exact hnd.filter _
        have hcku : c ∈ keysB (updateBal l d fun v => v + getVal l c) := by
          rw [keysB_updateBal]; exact hck
        have hndu : (keysB (updateBal l d fun v => v + getVal l c)).Nodup := by
          rw [keysB_updateBal]; exact hnd
        have hlen2 : l2.length ≤ n := by
          have h1 := length_dropKey hndu hcku
          rw [← hl2, length_updateBal] at h1
          omega
        have hsum2 : sumVals l2 = 0 := by
          rw [hl2, sumVals_dropKey hndu hcku, sumVals_updateBal _ hnd hdk, hsum]
          rw [getVal_updateBal_ne _ hcd]
          ring
        have hmem2 : ∀ x, x ∈ keysB l2 ↔ x ∈ keysB l ∧ x ≠ c := by
          intro x
          rw [hkeys2, List.mem_filter]
          simp
        simp only [netReceived_cons, hamin]
        by_cases hpc : p = c
        · have hnotin : p ∉ keysB l2 := fun hc => ((hmem2 p).mp hc).2 hpc
          have hzero : netReceived p (settleAux n l2) = 0 :=
            netReceived_eq_zero fun t ht => by
              obtain ⟨h1, h2⟩ := settleAux_mem_keys n l2 t ht
              exact ⟨fun hc => hnotin (hc ▸ h1), fun hc => hnotin (hc ▸ h2)⟩
          rw [hzero, if_pos hpc.symm, if_neg (fun hc => hcd (hc.trans hpc).symm), ← hpc]
          ring
        · have hp2 : p ∈ keysB l2 := (hmem2 p).mpr ⟨hp, hpc⟩
          have hrec := ih l2 hlen2 hnd2 hsum2 p hp2
          rw [hrec]
          have hval2 : getVal l2 p = if p = d then getVal l d + getVal l c else getVal l p := by
            rw [hl2, getVal_dropKey_ne hpc]
            by_cases hpd : p = d
            · rw [if_pos hpd, hpd, getVal_updateBal_self _ hdk]
            · rw [if_neg hpd, getVal_updateBal_ne _ hpd]
          rw [hval2]
          by_cases hpd : p = d
          · rw [if_pos hpd, if_neg (fun hc => hpc hc.symm), if_pos hpd.symm, ← hpd]
            ring
          · rw [if_neg hpd, if_neg (fun hc => hpc hc.symm), if_neg (fun hc => hpd hc.symm)]
            ring


/-- Every iteration of the clearing loop drops exactly one label, so a series
of `m ≥ 1` labels with distinct keys yields exactly `m - 1` transfers. -/
theorem settleAux_length : ∀ (fuel : ℕ) (l : List (String × ℚ)),
    l.length ≤ fuel → (keysB l).Nodup → 1 ≤ l.length →
    (settleAux fuel l).length + 1 = l.length := by
  intro fuel
  induction fuel with
  | zero =>
    intro l hlen _ h1
    omega
  | succ n ih =>
    intro l hlen hnd h1
    by_cases hlen1 : l.length ≤ 1
    · rw [settleAux, if_pos hlen1]
      simp only [List.length_nil]
      omega
    · rw [settleAux, if_neg hlen1]
      have hne : l ≠ [] := by
        rintro rfl
        exact hlen1 (by simp)
      have hcm : idxmaxE l ∈ l := idxmaxE_mem hne
      have hdm : idxminE l ∈ l := idxminE_mem hne
      set c := (idxmaxE l).1 with hcdef
      set d := (idxminE l).1 with hddef
      have hck : c ∈ keysB l := List.mem_map.mpr ⟨_, hcm, rfl⟩
      have hdk : d ∈ keysB l := List.mem_map.mpr ⟨_, hdm, rfl⟩
      show (((d, c, min (getVal l c) |getVal l d|) ::
        (if |getVal l d| ≤ getVal l c then
          settleAux n (dropKey (updateBal l c fun v => v - |getVal l d|) d)
        else
          settleAux n (dropKey (updateBal l d fun v => v + getVal l c) c))).length) + 1
          = l.length
      by_cases hbr : |getVal l d| ≤ getVal l c
      · rw [if_pos hbr]
        set l2 := dropKey (updateBal l c fun v => v - |getVal l d|) d with hl2
        have hdku : d ∈ keysB (updateBal l c fun v => v - |getVal l d|) := by
          rw [keysB_updateBal]; exact hdk
        have hndu : (keysB (updateBal l c fun v => v - |getVal l d|)).Nodup := by
          rw [keysB_updateBal]; exact hnd
        have hlen2 : l2.length + 1 = l.length := by
          have h2 := length_dropKey hndu hdku
          rw [← hl2, length_updateBal] at h2
          exact h2
        have hnd2 : (keysB l2).Nodup := by
          rw [hl2, keysB_dropKey, keysB_updateBal]
          exact hnd.filter _
        have := ih l2 (by omega) hnd2 (by omega)
        simp only [List.length_cons]
        omega
      · rw [if_neg hbr]
        set l2 := dropKey (updateBal l d fun v => v + getVal l c) c with hl2
        have hcku : c ∈ keysB (updateBal l d fun v => v + getVal l c) := by
          rw [keysB_updateBal]; exact hck
        have hndu : (keysB (updateBal l d fun v => v + getVal l c)).Nodup := by
          rw [keysB_updateBal]; exact hnd
        have hlen2 : l2.length + 1 = l.length := by
          have h2 := length_dropKey hndu hcku
          rw [← hl2, length_updateBal] at h2
          exact h2
        have hnd2 : (keysB l2).Nodup := by
          rw [hl2, keysB_dropKey, keysB_updateBal]
          exact hnd.filter _
        have := ih l2 (by omega) hnd2 (by omega)
        simp only [List.length_cons]
        omega

theorem settle_net {l : List (String × ℚ)} (hnd : (keysB l).Nodup)
    (hsum : sumVals l = 0) : ∀ p ∈ keysB l, netReceived p (settle l) = getVal l p :=
  settleAux_net l.length l (le_refl _) hnd hsum

theorem settle_length {l : List (String × ℚ)} (hnd : (keysB l).Nodup)
    (h1 : 1 ≤ l.length) : (settle l).length + 1 = l.length :=
  settleAux_length l.length l (le_refl _) hnd h1


/-! ### Concrete evaluations -/

theorem settleAux_succ (fuel : ℕ) (balances : List (String × ℚ)) :
    settleAux (fuel + 1) balances =
      (if balances.length ≤ 1 then []
       else
        (let creditor := (idxmaxE balances).1
         let debtor := (idxminE balances).1
         let paid := getVal balances creditor
         let received := |getVal balances debtor|
         (debtor, creditor, min paid received) ::
          (if received ≤ paid then
            settleAux fuel (dropKey (updateBal balances creditor fun v => v - received) debtor)
          else
            settleAux fuel (dropKey (updateBal balances debtor fun v => v + paid) creditor)))) := rfl

theorem summary_transfers (records : List PRecord) :
    (summary records).2 = settle (balancesSeries records) := rfl

theorem balancesSeries_zeroLedger :
    balancesSeries zeroLedger = [("Alice", 0), ("Bob", 0)] := by
  have htrA : trimRecord recZA = recZA := by decide
  have htrB : trimRecord recZB = recZB := by decide
  have hdA : expandDebtors recZA = ["Alice"] := by decide
  have hdB : expandDebtors recZB = ["Bob"] := by decide
  have h1 : ledgerRows zeroLedger =
      [{ creditor := "Alice", debtor := "Alice", item := "a", share := 10 },
       { creditor := "Bob", debtor := "Bob", item := "b", share := 10 }] := by
    simp only [ledgerRows, zeroLedger, List.map_cons, List.map_nil, htrA, htrB, allocate,
      List.flatMap_cons, List.flatMap_nil, hdA, hdB, List.append_nil,
      List.length_cons, List.length_nil]
    norm_num [recZA, recZB]
  have hp : personsSorted
      [({ creditor := "Alice", debtor := "Alice", item := "a", share := 10 } : Row),
       { creditor := "Bob", debtor := "Bob", item := "b", share := 10 }]
      = ["Alice", "Bob"] := by decide
  have hdl : debtorLabels
      [({ creditor := "Alice", debtor := "Alice", item := "a", share := 10 } : Row),
       { creditor := "Bob", debtor := "Bob", item := "b", share := 10 }] = ["Alice", "Bob"] := by decide
  have hcl : creditorLabels
      [({ creditor := "Alice", debtor := "Alice", item := "a", share := 10 } : Row),
       { creditor := "Bob", debtor := "Bob", item := "b", share := 10 }] = ["Alice", "Bob"] := by decide
  simp only [balancesSeries, h1, hp, List.map_cons, List.map_nil]
  simp [balance, totalPaid, totalReceived, cellTotal, hdl, hcl, List.filter_cons, beq_iff_eq]

theorem settle_zeroLedger : settle (balancesSeries zeroLedger) = [("Alice", "Alice", 0)] := by
  rw [balancesSeries_zeroLedger]
  have e1 : idxmaxE [("Alice", (0:ℚ)), ("Bob", 0)] = ("Alice", 0) := by
    norm_num [idxmaxE, idxmaxA]
  have e2 : idxminE [("Alice", (0:ℚ)), ("Bob", 0)] = ("Alice", 0) := by
    norm_num [idxminE, idxminA]
  have e3 : getVal [("Alice", (0:ℚ)), ("Bob", 0)] "Alice" = 0 := by
    simp [getVal, List.lookup]
  have habs : |(0 : ℚ)| = 0 := by norm_num
  simp only [settle, List.length_cons, List.length_nil, settleAux_succ, e1, e2, e3, habs]
  rw [if_neg (by norm_num), if_pos (by norm_num)]
  have e5 : dropKey (updateBal [("Alice", (0:ℚ)), ("Bob", 0)] "Alice" fun v => v - 0) "Alice"
      = [("Bob", 0)] := by
    simp [updateBal, dropKey]
  rw [e5]
  simp only [List.length_cons, List.length_nil, settleAux_succ]
  rw [if_pos (by norm_num)]
  norm_num

theorem balancesSeries_thirds :
    balancesSeries thirdsLedger
      = [("Alice", 10), ("Bob", -10/3), ("Charlie", -10/3), ("Dave", -10/3)] := by
  have htr : trimRecord recT = recT := by decide
  have hd : expandDebtors recT = ["Bob", "Charlie", "Dave"] := by decide
  have h1 : ledgerRows thirdsLedger =
      [{ creditor := "Alice", debtor := "Bob", item := "c", share := 10/3 },
       { creditor := "Alice", debtor := "Charlie", item := "c", share := 10/3 },
       { creditor := "Alice", debtor := "Dave", item := "c", share := 10/3 }] := by
    simp only [ledgerRows, thirdsLedger, List.map_cons, List.map_nil, htr, allocate,
      List.flatMap_cons, List.flatMap_nil, hd, List.append_nil,
      List.length_cons, List.length_nil]
    norm_num [recT]
  have hp : personsSorted
      [({ creditor := "Alice", debtor := "Bob", item := "c", share := 10/3 } : Row),
       { creditor := "Alice", debtor := "Charlie", item := "c", share := 10/3 },
       { creditor := "Alice", debtor := "Dave", item := "c", share := 10/3 }]
      = ["Alice", "Bob", "Charlie", "Dave"] := by decide
  have hdl : debtorLabels
      [({ creditor := "Alice", debtor := "Bob", item := "c", share := 10/3 } : Row),
       { creditor := "Alice", debtor := "Charlie", item := "c", share := 10/3 },
       { creditor := "Alice", debtor := "Dave", item := "c", share := 10/3 }]
      = ["Bob", "Charlie", "Dave"] := by decide
  have hcl : creditorLabels
      [({ creditor := "Alice", debtor := "Bob", item := "c", share := 10/3 } : Row),
       { creditor := "Alice", debtor := "Charlie", item := "c", share := 10/3 },
       { creditor := "Alice", debtor := "Dave", item := "c", share := 10/3 }]
      = ["Alice"] := by decide
  simp only [balancesSeries, h1, hp, List.map_cons, List.map_nil]
  simp [balance, totalPaid, totalReceived, cellTotal, hdl, hcl, List.filter_cons, beq_iff_eq]
  norm_num

theorem settle_thirds :
    settle (balancesSeries thirdsLedger)
      = [("Bob", "Alice", 10/3), ("Charlie", "Alice", 10/3), ("Dave", "Alice", 10/3)] := by
  rw [balancesSeries_thirds]
  have e1 : idxmaxE [("Alice", (10:ℚ)), ("Bob", -10/3), ("Charlie", -10/3), ("Dave", -10/3)]
      = ("Alice", 10) := by norm_num [idxmaxE, idxmaxA]
  have e2 : idxminE [("Alice", (10:ℚ)), ("Bob", -10/3), ("Charlie", -10/3), ("Dave", -10/3)]
      = ("Bob", -10/3) := by norm_num [idxminE, idxminA]
  have e3 : getVal [("Alice", (10:ℚ)), ("Bob", -10/3), ("Charlie", -10/3), ("Dave", -10/3)] "Alice"
      = 10 := by simp [getVal, List.lookup]
  have e4 : getVal [("Alice", (10:ℚ)), ("Bob", -10/3), ("Charlie", -10/3), ("Dave", -10/3)] "Bob"
      = -10/3 := by simp [getVal, List.lookup]
  have habs : |(-10/3 : ℚ)| = 10/3 := by norm_num
  have hmin : min (10 : ℚ) (10/3) = 10/3 := by norm_num
  simp only [settle, List.length_cons, List.length_nil, settleAux_succ, e1, e2, e3, e4, habs, hmin]
  rw [if_neg (by norm_num), if_pos (by norm_num)]
  have e5 : dropKey (updateBal [("Alice", (10:ℚ)), ("Bob", -10/3), ("Charlie", -10/3), ("Dave", -10/3)]
        "Alice" fun v => v - 10/3) "Bob"
      = [("Alice", 20/3), ("Charlie", -10/3), ("Dave", -10/3)] := by
    simp [updateBal, dropKey]
    norm_num
  rw [e5]
  have f1 : idxmaxE [("Alice", (20/3:ℚ)), ("Charlie", -10/3), ("Dave", -10/3)]
      = ("Alice", 20/3) := by norm_num [idxmaxE, idxmaxA]
  have f2 : idxminE [("Alice", (20/3:ℚ)), ("Charlie", -10/3), ("Dave", -10/3)]
      = ("Charlie", -10/3) := by norm_num [idxminE, idxminA]
  have f3 : getVal [("Alice", (20/3:ℚ)), ("Charlie", -10/3), ("Dave", -10/3)] "Alice"
      = 20/3 := by simp [getVal, List.lookup]
  have f4 : getVal [("Alice", (20/3:ℚ)), ("Charlie", -10/3), ("Dave", -10/3)] "Charlie"
      = -10/3 := by simp [getVal, List.lookup]
  have hmin2 : min (20/3 : ℚ) (10/3) = 10/3 := by norm_num
  simp only [List.length_cons, List.length_nil, settleAux_succ, f1, f2, f3, f4, habs, hmin2]
  rw [if_neg (by norm_num), if_pos (by norm_num)]
  have f5 : dropKey (updateBal [("Alice", (20/3:ℚ)), ("Charlie", -10/3), ("Dave", -10/3)]
        "Alice" fun v => v - 10/3) "Charlie"
      = [("Alice", 10/3), ("Dave", -10/3)] := by
    simp [updateBal, dropKey]
    norm_num
  rw [f5]
  have g1 : idxmaxE [("Alice", (10/3:ℚ)), ("Dave", -10/3)] = ("Alice", 10/3) := by
    norm_num [idxmaxE, idxmaxA]
  have g2 : idxminE [("Alice", (10/3:ℚ)), ("Dave", -10/3)] = ("Dave", -10/3) := by
    norm_num [idxminE, idxminA]
  have g3 : getVal [("Alice", (10/3:ℚ)), ("Dave", -10/3)] "Alice" = 10/3 := by
    simp [getVal, List.lookup]
  have g4 : getVal [("Alice", (10/3:ℚ)), ("Dave", -10/3)] "Dave" = -10/3 := by
    simp [getVal, List.lookup]
  have hmin3 : min (10/3 : ℚ) (10/3) = 10/3 := by norm_num
  simp only [List.length_cons, List.length_nil, settleAux_succ, g1, g2, g3, g4, habs, hmin3]
  rw [if_neg (by norm_num), if_pos (by norm_num)]
  have g5 : dropKey (updateBal [("Alice", (10/3:ℚ)), ("Dave", -10/3)]
        "Alice" fun v => v - 10/3) "Dave" = [("Alice", 0)] := by
    simp [updateBal, dropKey]
  rw [g5]
  simp only [List.length_cons, List.length_nil, settleAux_succ]
  rw [if_pos (by norm_num)]


theorem splitSepChars_ne_nil (isSep : Char → Bool) (acc l : List Char) :
    splitSepChars isSep acc l ≠ [] := by
  induction l generalizing acc with
  | nil => simp [splitSepChars]
  | cons c rest ih =>
    rw [splitSepChars]
    by_cases h : isSep c
    · rw [if_pos h]; simp
    · rw [if_neg h]; exact ih _

theorem addTokens_ne_nil (address : String) : addTokens address ≠ [] := by
  rw [addTokens, partsOf, reSplit]
  intro hc
  exact splitSepChars_ne_nil sepAnd [] address.toList
    (List.map_eq_nil_iff.mp (List.map_eq_nil_iff.mp hc))

/-! ## The claims -/

/-- C1 (confirmed): settlement correctness.  For every ledger and every person
appearing in the balances series that `summary` settles, the sum of the
Transfer amounts where that person is the payee minus the sum where they are
the payer equals that person's computed balance — exactly in this ℚ model,
hence within any rounding tolerance. -/
theorem C1_settlement_correctness (records : List PRecord) (p : String)
    (hp : p ∈ keysB (balancesSeries records)) :
    netReceived p (settle (balancesSeries records)) = getVal (balancesSeries records) p :=
  settle_net (nodup_keysB_balancesSeries records) (balancesSeries_sum_zero records) p hp

/-- Witness for C1 on the concrete one-record ledger. -/
theorem C1_witness :
    "Alice" ∈ keysB (balancesSeries records1) ∧
      netReceived "Alice" (settle (balancesSeries records1))
        = getVal (balancesSeries records1) "Alice" :=
  ⟨by decide, C1_settlement_correctness records1 "Alice" (by decide)⟩

/-- C2 (confirmed): round-trip conservation.  For every ledger the per-person
balances computed by `summary` over the aggregated pairwise debt matrix sum to
zero — exactly, hence within the 1e-6 tolerance. -/
theorem C2_conservation (records : List PRecord) :
    ((balancesSeries records).map Prod.snd).sum = 0 ∧
      |((balancesSeries records).map Prod.snd).sum| ≤ 1 / 1000000 := by
  have h := balancesSeries_sum_zero records
  rw [sumVals] at h
  exact ⟨h, by rw [h]; norm_num⟩

/-- C3 (confirmed): for every recipient expression and every supplied group
table, `compute_recipients` returns the sorted deduplicated union of the
group-expanded add tokens minus the union of the group-expanded subtract
tokens, and in particular reproduces the five worked examples of spec §4.1. -/
theorem C3_recipient_resolution :
    (∀ (address : String) (g : GroupTable),
        compute_recipients address (some g) = .ok (resolveSpec address g)) ∧
      compute_recipients "Alice + Ice Cream + Doris" (some gEx) = .ok ["Alice", "Bob", "Doris"] ∧
      compute_recipients "Alice & Bob & Charlie" (some gEx) = .ok ["Alice", "Bob", "Charlie"] ∧
      compute_recipients "Pizza; Ice Cream" (some gEx) = .ok ["Alice", "Bob"] ∧
      compute_recipients "Doris + Ice Cream - Bob" (some gEx) = .ok ["Alice", "Doris"] ∧
      compute_recipients "Ice Cream + Pizza \\ Alice" (some gEx) = .ok ["Bob"] :=
  ⟨compute_recipients_some, rfl, rfl, rfl, rfl, rfl⟩

/-- C4 counterexample: a record whose debtor expression resolves to the empty
set is *not* signalled as an error — the resolver returns an ordinary empty
list and the pipeline runs to completion, the row contributing no stacked row
and no transfer. -/
theorem C4_counterexample :
    compute_recipients "Bob - Bob" (some []) = .ok [] ∧
      ledgerRows [emptyRec] = [] ∧ (summary [emptyRec]).2 = [] :=
  ⟨rfl, by decide, rfl⟩

/-- C4 as amended: a record whose debtor expression resolves to the empty set
is silently dropped — it contributes nothing to the balances or the transfer
list, which equal those of the ledger without the record. -/
theorem C4_amended (records : List PRecord) (r : PRecord)
    (h : expandDebtors (trimRecord r) = []) :
    balancesSeries (r :: records) = balancesSeries records ∧
      (summary (r :: records)).2 = (summary records).2 := by
  have hrows : ledgerRows (r :: records) = ledgerRows records := by
    rw [ledgerRows, List.map_cons, allocate, List.flatMap_cons, h, List.map_nil,
      List.nil_append]
    rfl
  constructor
  · rw [balancesSeries, balancesSeries, hrows]
  · rw [summary_transfers, summary_transfers, balancesSeries, balancesSeries, hrows]

/-- Witness for the amended C4. -/
theorem C4_amended_witness :
    expandDebtors (trimRecord emptyRec) = [] ∧
      (balancesSeries (emptyRec :: records1) = balancesSeries records1 ∧
        (summary (emptyRec :: records1)).2 = (summary records1).2) :=
  ⟨by decide, C4_amended records1 emptyRec (by decide)⟩

/-- C5 counterexample: on the all-zero-balances ledger the loop still emits one
transfer, exceeding (number of persons with non-zero balance) − 1 = −1. -/
theorem C5_counterexample :
    ¬ (((settle (balancesSeries zeroLedger)).length : ℤ)
        ≤ (nonzeroCount (balancesSeries zeroLedger) : ℤ) - 1) := by
  rw [settle_zeroLedger, balancesSeries_zeroLedger]
  simp [nonzeroCount, List.filter_cons]

/-- C5 as amended: the number of transfers is at most (number of persons in the
balances series, zero balances included) − 1. -/
theorem C5_amended (records : List PRecord)
    (h1 : 1 ≤ (balancesSeries records).length) :
    ((settle (balancesSeries records)).length : ℤ)
      ≤ ((balancesSeries records).length : ℤ) - 1 := by
  have h := settle_length (nodup_keysB_balancesSeries records) h1
  omega

/-- Witness for the amended C5. -/
theorem C5_witness :
    1 ≤ (balancesSeries records1).length ∧
      ((settle (balancesSeries records1)).length : ℤ)
        ≤ ((balancesSeries records1).length : ℤ) - 1 :=
  ⟨by decide, C5_amended records1 (by decide)⟩

/-- C6 (code bug): a residual left when the loop stops is silently discarded.
On the non-conserving balances A = +5, B = −3 (as accumulated float error can
produce) the loop emits the single transfer B→A of 3 and stops; A's residual 2
appears nowhere — A nets 3 ≠ 5 — and the report of `summary` never contains
any step besides the fixed seven, so no warning-level result exists. -/
theorem C6_residual_discarded :
    settle [("A", 5), ("B", -3)] = [("B", "A", 3)] ∧
      netReceived "A" [("B", "A", 3)] = 3 ∧ (3 : ℚ) ≠ 5 ∧
      ∀ records : List PRecord, (summary records).1.map Prod.fst
        = ["Outlay", "Outlay (expanded)", "Outlay (stacked)", "Outlay (summed)",
           "Expenses", "Balances", "Clearing"] := by
  refine ⟨?_, by simp [netReceived], by norm_num, fun records => rfl⟩
  have e1 : idxmaxE [("A", (5:ℚ)), ("B", -3)] = ("A", 5) := by norm_num [idxmaxE, idxmaxA]
  have e2 : idxminE [("A", (5:ℚ)), ("B", -3)] = ("B", -3) := by norm_num [idxminE, idxminA]
  have e3 : getVal [("A", (5:ℚ)), ("B", -3)] "A" = 5 := by simp [getVal, List.lookup]
  have e4 : getVal [("A", (5:ℚ)), ("B", -3)] "B" = -3 := by simp [getVal, List.lookup]
  have habs : |(-3 : ℚ)| = 3 := by norm_num
  have hmin : min (5 : ℚ) 3 = 3 := by norm_num
  simp only [settle, List.length_cons, List.length_nil, settleAux_succ, e1, e2, e3, e4,
    habs, hmin]
  rw [if_neg (by norm_num), if_pos (by norm_num)]
  have e5 : dropKey (updateBal [("A", (5:ℚ)), ("B", -3)] "A" fun v => v - 3) "B"
      = [("A", 2)] := by
    simp [updateBal, dropKey]
    norm_num
  rw [e5]
  simp only [List.length_cons, List.length_nil, settleAux_succ]
  rw [if_pos (by norm_num)]

/-- C7 (code bug): the amount parser is Python `float`, which accepts a decimal
point but rejects a decimal comma (raising `ValueError`, modelled as `none`),
while the spec — and the bot's own help text — promise both separators; the
spec-modelled parser accepts `"3,5"`. -/
theorem C7_amount_decimal_comma :
    pyFloatOfString "3.5" = some (7/2) ∧ pyFloatOfString "3,5" = none ∧
      parseAmountSpec "3,5" = some (7/2) := by
  refine ⟨?_, by decide, ?_⟩
  · have h : pyFloatParts (("3.5".toList.dropWhile pySpace).reverse.dropWhile pySpace).reverse
        = some (false, 3, 5, 1, 0) := by decide
    rw [pyFloatOfString, h]
    norm_num [mantissaVal]
  · have h : pyFloatParts ((("3,5".toList.map fun c => if c == ',' then '.' else c).asString.toList.dropWhile
        pySpace).reverse.dropWhile pySpace).reverse = some (false, 3, 5, 1, 0) := by decide
    rw [parseAmountSpec, pyFloatOfString, h]
    norm_num [mantissaVal]

/-- C8 (code bug): with `groups=None`, `_expand_groups` returns the raw tuple,
so the set difference `tuple - set`/`tuple - tuple` raises `TypeError` for
*every* address instead of resolving literal names, while the spec-modelled
literal resolution returns the sorted literal difference. -/
theorem C8_groups_none_typeerror :
    (∀ address : String, compute_recipients address none = .error .typeError) ∧
      resolveLiteralSpec "Alice + Bob - Alice" = ["Bob"] := by
  refine ⟨fun address => ?_, rfl⟩
  rw [compute_recipients]
  have hne : ¬(addTokens address).isEmpty := by
    rw [List.isEmpty_iff]
    exact addTokens_ne_nil address
  have h1 : expand_groups none (addTokens address) = .tup (addTokens address) := by
    rw [expand_groups, if_neg hne]
  rw [h1]
  cases expand_groups none (subTokens address) <;> rfl

/-- C9 (confirmed): display rounding is frame-preserving.  The transfers
`summary` returns are those of the unrounded balances series; the `Balances`
step stores a rounded copy and the `Clearing` step a rounded sorted copy; on
the thirds ledger, whose balances are not two-decimal-representable, the
transfer amounts are still the exact thirds. -/
theorem C9_display_rounding :
    (∀ records : List PRecord,
        (summary records).2 = settle (balancesSeries records) ∧
        (summary records).1.lookup "Balances"
          = some (.series ((balancesSeries records).map fun e => (e.1, round_2 e.2))) ∧
        (summary records).1.lookup "Clearing"
          = some (.pairFrame (clearingTable (settle (balancesSeries records))))) ∧
      (summary thirdsLedger).2
        = [("Bob", "Alice", 10/3), ("Charlie", "Alice", 10/3), ("Dave", "Alice", 10/3)] ∧
      round_2 (-10/3 : ℚ) ≠ -10/3 := by
  refine ⟨fun records => ⟨rfl, rfl, rfl⟩, ?_, ?_⟩
  · rw [summary_transfers, settle_thirds]
  · have hm : (-10/3 : ℚ) * 100 = -1000/3 := by norm_num
    have hf : ⌊(-1000/3 : ℚ)⌋ = -334 := by
      rw [Int.floor_eq_iff]
      constructor <;> norm_num
    rw [round_2, pyRound, hm, hf]
    rw [if_neg (by norm_num), if_pos (by norm_num)]
    norm_num

/-- C10 (confirmed): for every ledger whose balances series has P ≥ 1 persons
(zero balances included) the loop emits exactly P − 1 transfers; on the
all-zero ledger the single transfer has amount zero and identical payer and
payee. -/
theorem C10_exact_transfer_count :
    (∀ records : List PRecord, 1 ≤ (balancesSeries records).length →
        (settle (balancesSeries records)).length = (balancesSeries records).length - 1) ∧
      (summary zeroLedger).2 = [("Alice", "Alice", 0)] := by
  constructor
  · intro records h1
    have h := settle_length (nodup_keysB_balancesSeries records) h1
    omega
  · rw [summary_transfers, settle_zeroLedger]

/-- Witness for C10's general part. -/
theorem C10_witness :
    1 ≤ (balancesSeries zeroLedger).length ∧
      (settle (balancesSeries zeroLedger)).length = (balancesSeries zeroLedger).length - 1 :=
  ⟨by decide, C10_exact_transfer_count.1 zeroLedger (by decide)⟩

end Stats
